import Mathlib

/-!
Shallow embedding of `src/testMulhs.cpp` and `src/main.cpp` from the
llvm-abstract-transfer-functions repository.

An `llvm::KnownBits` of width `w` is a pair of bit masks (`Zero`, `One`),
each an `APInt` of width `w`.  We model an `APInt` value of width `w` as a
`Nat` strictly below `2 ^ w`, with bit `i` read by `Nat.testBit`.  The
`uint64_t` counters of the C++ code are modelled as `Nat` with explicit
`% 2 ^ 64` where the C++ arithmetic wraps.
-/

/-- Model of `llvm::KnownBits`: a bit width together with the `Zero` and
`One` masks (each mask is the value of the corresponding `APInt`). -/
structure KnownBits where
  width : Nat
  Zero : Nat
  One : Nat
deriving DecidableEq, Repr

/-- Model of `APInt::setBit`: set bit `i`. -/
def setBit (n i : Nat) : Nat := n ||| 2 ^ i

/-- Bitwise and-not, `m & ~n`, written so that it computes:
`m ^^^ (m &&& n)` clears exactly the bits of `m` that are set in `n`. -/
def andNot (m n : Nat) : Nat := m ^^^ (m &&& n)

/-- Model of `APInt::clearBit`: clear bit `i` (and-not with `2 ^ i`). -/
def clearBit (n i : Nat) : Nat := andNot n (2 ^ i)

/-- The inner loop of `enumerateFromBitWidth`: reading `temp` as a base-3
numeral, digit `0` at position `bit` sets bit `bit` of the `Zero` mask,
digit `1` sets it in the `One` mask, digit `2` leaves both clear.
Returns the pair `(Zero, One)` of masks for width `w`. -/
def kbMasks : Nat → Nat → Nat × Nat
  | 0, _ => (0, 0)
  | w + 1, temp =>
    let digit := temp % 3
    let rest := kbMasks w (temp / 3)
    ((if digit = 0 then 1 else 0) + 2 * rest.1,
     (if digit = 1 then 1 else 0) + 2 * rest.2)

/-- The `KnownBits` built by iteration `i` of the outer loop of
`enumerateFromBitWidth` (both copies build it the same way). -/
def mkKB (w i : Nat) : KnownBits :=
  ⟨w, (kbMasks w i).1, (kbMasks w i).2⟩

/-- The `total` counter of `enumerateFromBitWidth`: starts at 1 and is
multiplied by 3 once per bit, in a wrapping `uint64_t`. -/
def totalCounter : Nat → Nat
  | 0 => 1
  | w + 1 => totalCounter w * 3 % 2 ^ 64

/-- Function `enumerateFromBitWidth` from `src/testMulhs.cpp`: the loop index `i`
starts at 0 and runs up to `total`. -/
def enumerateFromBitWidth (w : Nat) : List KnownBits :=
  (List.range (totalCounter w)).map (mkKB w)

/-- Function `enumerateFromBitWidth` from `src/main.cpp`: the loop is
`for (uint64_t i; i < total; i++)`, so the index starts at the
indeterminate value `i0` held by the uninitialized variable and runs up to
`total`. -/
def enumerateFromBitWidthMain (w i0 : Nat) : List KnownBits :=
  (List.range' i0 (totalCounter w - i0)).map (mkKB w)

/-- The `unknownIndexes` vector of `concretization`: indices `< width`
where neither mask has the bit set, in increasing order. -/
def unknownIndexes (kb : KnownBits) : List Nat :=
  (List.range kb.width).filter fun i => !kb.Zero.testBit i && !kb.One.testBit i

/-- The inner loop of `concretization`: starting from `one` (= `kb.One`),
walk the unknown indices in order, setting or clearing each according to
the successive low bits of `i`. -/
def applyAssignment : Nat → List Nat → Nat → Nat
  | one, [], _ => one
  | one, idx :: rest, i =>
    applyAssignment (if i % 2 = 1 then setBit one idx else clearBit one idx) rest (i / 2)

/-- Function `concretization` from `src/testMulhs.cpp` (identical in
`src/main.cpp`): one concrete value per assignment index
`i < 2 ^ |unknownIndexes|`. -/
def concretization (kb : KnownBits) : List Nat :=
  (List.range (2 ^ (unknownIndexes kb).length)).map
    (applyAssignment kb.One (unknownIndexes kb))

/-- Function `abstraction` from `src/testMulhs.cpp`: `knownZero` starts at
`APInt::getAllOnes(bw)` and accumulates `&= ~value`; `knownOne` starts at
all-ones and accumulates `&= value`.  The width is the common width of the
values, passed explicitly here. -/
def abstraction (w : Nat) (values : List Nat) : KnownBits :=
  ⟨w, values.foldl andNot (2 ^ w - 1), values.foldl Nat.land (2 ^ w - 1)⟩

/-- Function `abstraction` from `src/main.cpp`: identical except `knownZero` is
initialized to `APInt(bw, 0x0, false)`, i.e. 0, instead of all-ones. -/
def abstractionMain (w : Nat) (values : List Nat) : KnownBits :=
  ⟨w, values.foldl andNot 0, values.foldl Nat.land (2 ^ w - 1)⟩

/-- Twos-complement signed reading of a width-`w` bit pattern (`APInt` sign
interpretation, as used by `sext`). -/
def toInt (w v : Nat) : Int :=
  if v.testBit (w - 1) then (v : Int) - 2 ^ w else (v : Int)

/-- The exact signed high-multiplication of the inner loop of
`naiveMulhs`: sign-extend both width-`w` operands to `2*w` bits, multiply
as `2*w`-bit values, and extract bits `[w, 2*w)` of the product. -/
def mulhsExact (w lhs rhs : Nat) : Nat :=
  ((toInt w lhs * toInt w rhs) % (2 ^ (2 * w) : Int)).toNat / 2 ^ w % 2 ^ w

/-- Function `naiveMulhs` from `src/testMulhs.cpp`: concretize both operands, apply
the exact operation to every pair (left operand outer loop), abstract the
resulting list at the width of the left operand. -/
def naiveMulhs (lhs rhs : KnownBits) : KnownBits :=
  abstraction lhs.width
    ((concretization lhs).flatMap fun a =>
      (concretization rhs).map fun b => mulhsExact lhs.width a b)

/-- Model of `APInt::countPopulation` on a width-`w` mask. -/
def popCount (w n : Nat) : Nat :=
  ((List.range w).filter n.testBit).length

/-- The comparability loop of `testMulhsTransferFunctions`: scan bit
indices `k < w` for a direct contradiction between the composite and the
naive result. -/
def hasContradiction (w : Nat) (c n : KnownBits) : Bool :=
  (List.range w).any fun k =>
    (c.Zero.testBit k && n.One.testBit k) || (c.One.testBit k && n.Zero.testBit k)

/-- Which of the four counters a pair falls into. -/
inductive CompareClass where
  | incomparable
  | compositeMorePrecise
  | naiveMorePrecise
  | samePrecision
deriving DecidableEq, Repr

/-- Per-pair classification logic of `testMulhsTransferFunctions`:
incomparable on a bit contradiction, otherwise compare the precision
counts (popcount of `Zero` plus popcount of `One`). -/
def classifyPair (w : Nat) (c n : KnownBits) : CompareClass :=
  if hasContradiction w c n then .incomparable
  else
    let cp := popCount w c.Zero + popCount w c.One
    let np := popCount w n.Zero + popCount w n.One
    if cp > np then .compositeMorePrecise
    else if np > cp then .naiveMorePrecise
    else .samePrecision

/-- The four counters of `testMulhsTransferFunctions`. -/
structure Counts where
  compositeMorePrecise : Nat
  naiveMorePrecise : Nat
  samePrecision : Nat
  incomparableResults : Nat
deriving DecidableEq, Repr

/-- Increment the counter selected by the classification. -/
def bumpCounts (c : Counts) : CompareClass → Counts
  | .incomparable => { c with incomparableResults := c.incomparableResults + 1 }
  | .compositeMorePrecise => { c with compositeMorePrecise := c.compositeMorePrecise + 1 }
  | .naiveMorePrecise => { c with naiveMorePrecise := c.naiveMorePrecise + 1 }
  | .samePrecision => { c with samePrecision := c.samePrecision + 1 }

/-- Sum of the four counters. -/
def countsSum (c : Counts) : Nat :=
  c.compositeMorePrecise + c.naiveMorePrecise + c.samePrecision + c.incomparableResults

/-- The counting part of `testMulhsTransferFunctions`, parameterized by
the external reference transfer function `KnownBits::mulhs` (`ref`): for
every ordered pair of enumerated states, classify
`(ref LHS RHS, naiveMulhs LHS RHS)` and bump one counter. -/
def testMulhsTransferFunctions (w : Nat) (ref : KnownBits → KnownBits → KnownBits) : Counts :=
  let states := enumerateFromBitWidth w
  (states.flatMap fun L => states.map fun R => (L, R)).foldl
    (fun cnt p => bumpCounts cnt (classifyPair w (ref p.1 p.2) (naiveMulhs p.1 p.2)))
    ⟨0, 0, 0, 0⟩

/-- Result of `std::stoi` on `argv[1]` as far as `main` observes it. -/
inductive StoiResult where
  | ok (n : Int)
  | invalidArgument
deriving DecidableEq, Repr

/-- Observable outcome of `main`: whether the usage text was printed, the
process exit status, and the bit width the test was run with (if any). -/
structure MainOutcome where
  usagePrinted : Bool
  exitCode : Nat
  ranWidth : Option Nat
deriving DecidableEq, Repr

/-- Function `main` from `src/testMulhs.cpp`, over the list of parsed command-line
arguments after the program name: with no argument it prints usage and
returns 1; otherwise `bw` starts at 6, a successful parse stores the value
(converted to `unsigned`), `std::invalid_argument` sets `bw = 4`, and the
test runs with that width, returning 0. -/
def mainRun (args : List StoiResult) : MainOutcome :=
  match args with
  | [] => ⟨true, 1, none⟩
  | a :: _ =>
    let bw : Nat :=
      match a with
      | .ok n => ((n % (2 ^ 32 : Int)).toNat : Nat)
      | .invalidArgument => 4
    ⟨false, 0, some bw⟩

example : totalCounter 2 = 9 := by decide
example : enumerateFromBitWidth 1 =
    [⟨1, 1, 0⟩, ⟨1, 0, 1⟩, ⟨1, 0, 0⟩] := by decide
example : concretization ⟨2, 0, 1⟩ = [1, 3] := by decide
example : abstraction 2 [1, 3] = ⟨2, 0, 1⟩ := by decide
example : abstractionMain 1 [0] = ⟨1, 0, 0⟩ := by decide
example : mulhsExact 2 3 3 = 0 := by decide
example : mulhsExact 2 2 2 = 1 := by decide

/-! ### Bit-level helper lemmas -/

theorem testBit_andNot (m n i : Nat) :
    (andNot m n).testBit i = (m.testBit i && !n.testBit i) := by
  simp only [andNot, Nat.testBit_xor, Nat.testBit_and]
  cases m.testBit i <;> cases n.testBit i <;> rfl

theorem testBit_setBit (n i j : Nat) :
    (setBit n i).testBit j = (n.testBit j || decide (i = j)) := by
  simp [setBit, Nat.testBit_or, Nat.testBit_two_pow]

theorem testBit_clearBit (n i j : Nat) :
    (clearBit n i).testBit j = (n.testBit j && !decide (i = j)) := by
  simp [clearBit, testBit_andNot, Nat.testBit_two_pow]

theorem testBit_of_lt_two_pow {x w : Nat} (h : x < 2 ^ w) {j : Nat} (hj : w ≤ j) :
    x.testBit j = false :=
  Nat.testBit_lt_two_pow (Nat.lt_of_lt_of_le h (Nat.pow_le_pow_right (by omega) hj))

theorem foldl_andNot_testBit (l : List Nat) (a i : Nat) :
    (l.foldl andNot a).testBit i = (a.testBit i && l.all fun v => !v.testBit i) := by
  induction l generalizing a with
  | nil => simp
  | cons v t ih => simp [ih, testBit_andNot, Bool.and_assoc]

theorem foldl_land_testBit (l : List Nat) (a i : Nat) :
    (l.foldl Nat.land a).testBit i = (a.testBit i && l.all fun v => v.testBit i) := by
  induction l generalizing a with
  | nil => simp
  | cons v t ih =>
    have : a.land v = a &&& v := rfl
    simp [ih, this, Nat.testBit_and, Bool.and_assoc]

theorem no_conflict_bits {kb : KnownBits} (hc : kb.Zero &&& kb.One = 0) (j : Nat) :
    ¬(kb.Zero.testBit j = true ∧ kb.One.testBit j = true) := by
  rintro ⟨h0, h1⟩
  have := congrArg (fun n => n.testBit j) hc
  simp [Nat.testBit_and, h0, h1] at this

/-! ### Enumeration lemmas -/

theorem kbMasks_fst_testBit (w : Nat) :
    ∀ t j, ((kbMasks w t).1).testBit j =
      (decide (j < w) && decide (t / 3 ^ j % 3 = 0)) := by
  induction w with
  | zero => intro t j; simp [kbMasks]
  | succ w ih =>
    intro t j
    cases j with
    | zero =>
      simp only [kbMasks, Nat.testBit_zero, Nat.pow_zero, Nat.div_one]
      by_cases h : t % 3 = 0 <;> simp [h] <;> omega
    | succ j =>
      have hdiv : ((if t % 3 = 0 then 1 else 0) + 2 * (kbMasks w (t / 3)).1) / 2
          = (kbMasks w (t / 3)).1 := by
        by_cases h : t % 3 = 0 <;> simp [h] <;> omega
      simp only [kbMasks, Nat.testBit_add_one, hdiv, ih]
      have : t / 3 / 3 ^ j = t / 3 ^ (j + 1) := by
        rw [Nat.div_div_eq_div_mul, Nat.pow_succ, Nat.mul_comm 3 (3 ^ j)]
      rw [this]
      simp [Nat.succ_lt_succ_iff]

theorem kbMasks_snd_testBit (w : Nat) :
    ∀ t j, ((kbMasks w t).2).testBit j =
      (decide (j < w) && decide (t / 3 ^ j % 3 = 1)) := by
  induction w with
  | zero => intro t j; simp [kbMasks]
  | succ w ih =>
    intro t j
    cases j with
    | zero =>
      simp only [kbMasks, Nat.testBit_zero, Nat.pow_zero, Nat.div_one]
      by_cases h : t % 3 = 1 <;> simp [h] <;> omega
    | succ j =>
      have hdiv : ((if t % 3 = 1 then 1 else 0) + 2 * (kbMasks w (t / 3)).2) / 2
          = (kbMasks w (t / 3)).2 := by
        by_cases h : t % 3 = 1 <;> simp [h] <;> omega
      simp only [kbMasks, Nat.testBit_add_one, hdiv, ih]
      have : t / 3 / 3 ^ j = t / 3 ^ (j + 1) := by
        rw [Nat.div_div_eq_div_mul, Nat.pow_succ, Nat.mul_comm 3 (3 ^ j)]
      rw [this]
      simp [Nat.succ_lt_succ_iff]

theorem kbMasks_no_conflict (w t j : Nat) :
    ¬(((kbMasks w t).1.testBit j = true) ∧ ((kbMasks w t).2.testBit j = true)) := by
  rintro ⟨h1, h2⟩
  rw [kbMasks_fst_testBit] at h1
  rw [kbMasks_snd_testBit] at h2
  simp at h1 h2
  omega

theorem kbMasks_inj (w : Nat) :
    ∀ i j, i < 3 ^ w → j < 3 ^ w → kbMasks w i = kbMasks w j → i = j := by
  induction w with
  | zero =>
    intro i j hi hj _
    simp [Nat.pow_zero, Nat.lt_one_iff] at hi hj
    omega
  | succ w ih =>
    intro i j hi hj h
    have h1 := congrArg Prod.fst h
    have h2 := congrArg Prod.snd h
    simp only [kbMasks] at h1 h2
    have hi3 : i / 3 < 3 ^ w := by
      rw [Nat.div_lt_iff_lt_mul (by omega)]
      calc i < 3 ^ (w + 1) := hi
        _ = 3 ^ w * 3 := by rw [Nat.pow_succ]
    have hj3 : j / 3 < 3 ^ w := by
      rw [Nat.div_lt_iff_lt_mul (by omega)]
      calc j < 3 ^ (w + 1) := hj
        _ = 3 ^ w * 3 := by rw [Nat.pow_succ]
    have c1 : (i % 3 = 0 ↔ j % 3 = 0) ∧ (kbMasks w (i / 3)).1 = (kbMasks w (j / 3)).1 := by
      by_cases p : i % 3 = 0 <;> by_cases q : j % 3 = 0 <;>
        simp [p, q] at h1 ⊢ <;> omega
    have c2 : (i % 3 = 1 ↔ j % 3 = 1) ∧ (kbMasks w (i / 3)).2 = (kbMasks w (j / 3)).2 := by
      by_cases p : i % 3 = 1 <;> by_cases q : j % 3 = 1 <;>
        simp [p, q] at h2 ⊢ <;> omega
    have hdiv : i / 3 = j / 3 := ih _ _ hi3 hj3 (Prod.ext c1.2 c2.2)
    have : i % 3 = j % 3 := by
      rcases c1 with ⟨c1, -⟩
      rcases c2 with ⟨c2, -⟩
      omega
    omega

theorem totalCounter_eq (w : Nat) : totalCounter w = 3 ^ w % 2 ^ 64 := by
  induction w with
  | zero => rfl
  | succ w ih =>
    have h3 : (3 : Nat) % 2 ^ 64 = 3 := Nat.mod_eq_of_lt (by norm_num)
    show totalCounter w * 3 % 2 ^ 64 = 3 ^ (w + 1) % 2 ^ 64
    have hp : (3 : Nat) ^ (w + 1) = 3 ^ w * 3 := rfl
    rw [ih, hp, Nat.mul_mod (3 ^ w) 3, h3]

/-! ### Concretization lemmas -/

theorem mem_unknownIndexes {kb : KnownBits} {j : Nat} :
    j ∈ unknownIndexes kb ↔
      j < kb.width ∧ kb.Zero.testBit j = false ∧ kb.One.testBit j = false := by
  simp [unknownIndexes, List.mem_filter, List.mem_range]

theorem unknownIndexes_nodup (kb : KnownBits) : (unknownIndexes kb).Nodup :=
  (List.nodup_range _).filter _

theorem applyAssignment_testBit_not_mem :
    ∀ (idxs : List Nat) (one i j : Nat), j ∉ idxs →
      (applyAssignment one idxs i).testBit j = one.testBit j := by
  intro idxs
  induction idxs with
  | nil => intro one i j _; rfl
  | cons idx rest ih =>
    intro one i j h
    rw [List.mem_cons, not_or] at h
    show (applyAssignment (if i % 2 = 1 then setBit one idx else clearBit one idx)
      rest (i / 2)).testBit j = one.testBit j
    rw [ih _ _ _ h.2]
    have hne : idx ≠ j := fun e => h.1 e.symm
    by_cases hp : i % 2 = 1 <;>
      simp [hp, testBit_setBit, testBit_clearBit, hne]

theorem applyAssignment_testBit_get :
    ∀ (idxs : List Nat) (one i p : Nat) (hp : p < idxs.length), idxs.Nodup →
      (applyAssignment one idxs i).testBit (idxs.get ⟨p, hp⟩) = i.testBit p := by
  intro idxs
  induction idxs with
  | nil => intro one i p hp _; simp at hp
  | cons idx rest ih =>
    intro one i p hp hnd
    rw [List.nodup_cons] at hnd
    cases p with
    | zero =>
      show (applyAssignment (if i % 2 = 1 then setBit one idx else clearBit one idx)
        rest (i / 2)).testBit idx = i.testBit 0
      rw [applyAssignment_testBit_not_mem _ _ _ _ hnd.1]
      by_cases hp2 : i % 2 = 1 <;>
        simp [hp2, testBit_setBit, testBit_clearBit, Nat.testBit_zero] <;> omega
    | succ p =>
      show (applyAssignment (if i % 2 = 1 then setBit one idx else clearBit one idx)
        rest (i / 2)).testBit (rest.get ⟨p, by simpa using hp⟩) = i.testBit (p + 1)
      rw [ih _ _ _ _ hnd.2, Nat.testBit_add_one]

theorem applyAssignment_cons_bit (one idx : Nat) (rest : List Nat) (b : Bool) (i : Nat) :
    applyAssignment one (idx :: rest) ((if b then 1 else 0) + 2 * i)
      = applyAssignment (if b then setBit one idx else clearBit one idx) rest i := by
  cases b
  · show applyAssignment (if (0 + 2 * i) % 2 = 1 then setBit one idx else clearBit one idx)
      rest ((0 + 2 * i) / 2) = applyAssignment (clearBit one idx) rest i
    rw [if_neg (by omega), show (0 + 2 * i) / 2 = i by omega]
  · show applyAssignment (if (1 + 2 * i) % 2 = 1 then setBit one idx else clearBit one idx)
      rest ((1 + 2 * i) / 2) = applyAssignment (setBit one idx) rest i
    rw [if_pos (by omega), show (1 + 2 * i) / 2 = i by omega]

theorem applyAssignment_surj :
    ∀ (idxs : List Nat) (one v : Nat),
      (∀ j, j ∉ idxs → one.testBit j = v.testBit j) →
      ∃ i, i < 2 ^ idxs.length ∧ applyAssignment one idxs i = v := by
  intro idxs
  induction idxs with
  | nil =>
    intro one v h
    exact ⟨0, Nat.one_pos, Nat.eq_of_testBit_eq fun j => h j (List.not_mem_nil j)⟩
  | cons idx rest ih =>
    intro one v h
    have hbody : ∀ j, j ∉ rest →
        (if v.testBit idx then setBit one idx else clearBit one idx).testBit j
          = v.testBit j := by
      intro j hj
      by_cases hij : idx = j
      · subst hij
        by_cases hv : v.testBit idx <;>
          simp [hv, testBit_setBit, testBit_clearBit]
      · have hne : idx ≠ j := hij
        have hj' : j ∉ idx :: rest := by
          rw [List.mem_cons, not_or]; exact ⟨fun e => hij e.symm, hj⟩
        by_cases hv : v.testBit idx <;>
          simp [hv, testBit_setBit, testBit_clearBit, hne, h j hj']
    obtain ⟨i', hi', heq⟩ := ih _ v hbody
    refine ⟨(if v.testBit idx then 1 else 0) + 2 * i', ?_, ?_⟩
    · have hlen : (2 : Nat) ^ (idx :: rest).length = 2 * 2 ^ rest.length := by
        simp [List.length_cons, Nat.pow_succ, Nat.mul_comm]
      rw [hlen]
      by_cases hv : v.testBit idx <;> simp [hv] <;> omega
    · rw [applyAssignment_cons_bit]
      exact heq

theorem one_testBit_false_of_conflict_free {kb : KnownBits}
    (hc : kb.Zero &&& kb.One = 0) {j : Nat} (hz : kb.Zero.testBit j = true) :
    kb.One.testBit j = false := by
  cases h1 : kb.One.testBit j
  · rfl
  · exact absurd ⟨hz, h1⟩ (no_conflict_bits hc j)

theorem zero_testBit_false_of_conflict_free {kb : KnownBits}
    (hc : kb.Zero &&& kb.One = 0) {j : Nat} (ho : kb.One.testBit j = true) :
    kb.Zero.testBit j = false := by
  cases h1 : kb.Zero.testBit j
  · rfl
  · exact absurd ⟨h1, ho⟩ (no_conflict_bits hc j)

theorem mem_concretization_iff {kb : KnownBits} (hc : kb.Zero &&& kb.One = 0)
    (ho : kb.One < 2 ^ kb.width) (v : Nat) :
    v ∈ concretization kb ↔
      v < 2 ^ kb.width ∧
      ∀ j, (kb.Zero.testBit j = true → v.testBit j = false) ∧
           (kb.One.testBit j = true → v.testBit j = true) := by
  constructor
  · rintro hv
    simp only [concretization, List.mem_map, List.mem_range] at hv
    obtain ⟨i, hi, rfl⟩ := hv
    have hbit : ∀ j, j ∉ unknownIndexes kb →
        (applyAssignment kb.One (unknownIndexes kb) i).testBit j = kb.One.testBit j :=
      fun j hj => applyAssignment_testBit_not_mem _ _ _ _ hj
    refine ⟨?_, ?_⟩
    · apply Nat.lt_pow_two_of_testBit
      intro j hj
      have hjn : j ∉ unknownIndexes kb := fun hmem =>
        Nat.not_le_of_lt (mem_unknownIndexes.mp hmem).1 hj
      rw [hbit j hjn]
      exact testBit_of_lt_two_pow ho hj
    · intro j
      constructor
      · intro hz
        have hjn : j ∉ unknownIndexes kb := fun hmem => by
          have := (mem_unknownIndexes.mp hmem).2.1
          rw [hz] at this
          simp at this
        rw [hbit j hjn]
        exact one_testBit_false_of_conflict_free hc hz
      · intro h1
        have hjn : j ∉ unknownIndexes kb := fun hmem => by
          have := (mem_unknownIndexes.mp hmem).2.2
          rw [h1] at this
          simp at this
        rw [hbit j hjn]
        exact h1
  · rintro ⟨hlt, hcons⟩
    have hsrc : ∀ j, j ∉ unknownIndexes kb → kb.One.testBit j = v.testBit j := by
      intro j hj
      rw [mem_unknownIndexes] at hj
      by_cases hw : j < kb.width
      · by_cases hz : kb.Zero.testBit j = true
        · rw [one_testBit_false_of_conflict_free hc hz, (hcons j).1 hz]
        · have h1 : kb.One.testBit j = true := by
            by_contra h1
            exact hj ⟨hw, by simpa using hz, by simpa using h1⟩
          rw [h1, (hcons j).2 h1]
      · rw [testBit_of_lt_two_pow ho (Nat.le_of_not_lt hw),
          testBit_of_lt_two_pow hlt (Nat.le_of_not_lt hw)]
    obtain ⟨i, hi, heq⟩ := applyAssignment_surj (unknownIndexes kb) kb.One v hsrc
    simp only [concretization, List.mem_map, List.mem_range]
    exact ⟨i, hi, heq⟩

theorem concretization_length (kb : KnownBits) :
    (concretization kb).length = 2 ^ (unknownIndexes kb).length := by
  simp [concretization]

theorem concretization_nodup (kb : KnownBits) : (concretization kb).Nodup := by
  apply List.Nodup.map_on _ (List.nodup_range _)
  intro i1 h1 i2 h2 heq
  rw [List.mem_range] at h1 h2
  apply Nat.eq_of_testBit_eq
  intro p
  by_cases hp : p < (unknownIndexes kb).length
  · have e1 := applyAssignment_testBit_get (unknownIndexes kb) kb.One i1 p hp
      (unknownIndexes_nodup kb)
    have e2 := applyAssignment_testBit_get (unknownIndexes kb) kb.One i2 p hp
      (unknownIndexes_nodup kb)
    rw [← e1, ← e2, heq]
  · rw [testBit_of_lt_two_pow h1 (Nat.le_of_not_lt hp),
      testBit_of_lt_two_pow h2 (Nat.le_of_not_lt hp)]

theorem concretization_of_no_unknown {kb : KnownBits}
    (h : (unknownIndexes kb).length = 0) : concretization kb = [kb.One] := by
  rw [List.length_eq_zero] at h
  simp [concretization, h, List.range_succ]
  rfl

/-! ### Abstraction lemmas -/

theorem abstraction_Zero_testBit (w : Nat) (values : List Nat) (j : Nat) :
    (abstraction w values).Zero.testBit j =
      (decide (j < w) && values.all fun v => !v.testBit j) := by
  show (values.foldl andNot (2 ^ w - 1)).testBit j = _
  rw [foldl_andNot_testBit, Nat.testBit_two_pow_sub_one]

theorem abstraction_One_testBit (w : Nat) (values : List Nat) (j : Nat) :
    (abstraction w values).One.testBit j =
      (decide (j < w) && values.all fun v => v.testBit j) := by
  show (values.foldl Nat.land (2 ^ w - 1)).testBit j = _
  rw [foldl_land_testBit, Nat.testBit_two_pow_sub_one]

theorem mem_concretization_zero (kb : KnownBits) :
    applyAssignment kb.One (unknownIndexes kb) 0 ∈ concretization kb := by
  simp only [concretization, List.mem_map, List.mem_range]
  exact ⟨0, Nat.pos_pow_of_pos _ (by omega), rfl⟩

/-- Claim C2: for every nonempty list of same-width values, every member is
consistent with `abstraction`, and a bit is marked Zero (resp. One) iff it
is clear (resp. set) in every member. -/
theorem abstraction_sound_most_precise (w : Nat) (values : List Nat)
    (hne : values ≠ []) (hw : ∀ v ∈ values, v < 2 ^ w) :
    (∀ v ∈ values, ∀ j,
        ((abstraction w values).Zero.testBit j = true → v.testBit j = false) ∧
        ((abstraction w values).One.testBit j = true → v.testBit j = true)) ∧
    (∀ j, (abstraction w values).Zero.testBit j = true ↔
        (j < w ∧ ∀ v ∈ values, v.testBit j = false)) ∧
    (∀ j, (abstraction w values).One.testBit j = true ↔
        (j < w ∧ ∀ v ∈ values, v.testBit j = true)) := by
  have hzc : ∀ j, (abstraction w values).Zero.testBit j = true ↔
      (j < w ∧ ∀ v ∈ values, v.testBit j = false) := by
    intro j
    rw [abstraction_Zero_testBit, Bool.and_eq_true, List.all_eq_true]
    simp
  have hoc : ∀ j, (abstraction w values).One.testBit j = true ↔
      (j < w ∧ ∀ v ∈ values, v.testBit j = true) := by
    intro j
    rw [abstraction_One_testBit, Bool.and_eq_true, List.all_eq_true]
    simp
  refine ⟨?_, hzc, hoc⟩
  intro v hv j
  exact ⟨fun h => ((hzc j).mp h).2 v hv, fun h => ((hoc j).mp h).2 v hv⟩

theorem abstraction_sound_most_precise_witness :
    (([1] : List Nat) ≠ []) ∧ (∀ v ∈ ([1] : List Nat), v < 2 ^ 1) ∧
    ((abstraction 1 [1]).One.testBit 0 = true ↔
      (0 < 1 ∧ ∀ v ∈ ([1] : List Nat), v.testBit 0 = true)) :=
  ⟨by decide, by decide,
    (abstraction_sound_most_precise 1 [1] (by decide) (by decide)).2.2 0⟩

/-- Claim C4: for a conflict-free state with k unknown bits, `concretization`
returns exactly the consistent width-w values, each exactly once, so the
list has length 2^k; with k = 0 it is the single value `One`. -/
theorem concretization_exact (kb : KnownBits) (hc : kb.Zero &&& kb.One = 0)
    (hz : kb.Zero < 2 ^ kb.width) (ho : kb.One < 2 ^ kb.width) :
    (concretization kb).length = 2 ^ (unknownIndexes kb).length ∧
    (concretization kb).Nodup ∧
    (∀ v, v ∈ concretization kb ↔
      (v < 2 ^ kb.width ∧
        ∀ j, (kb.Zero.testBit j = true → v.testBit j = false) ∧
             (kb.One.testBit j = true → v.testBit j = true))) ∧
    ((unknownIndexes kb).length = 0 → concretization kb = [kb.One]) :=
  ⟨concretization_length kb, concretization_nodup kb,
   mem_concretization_iff hc ho, concretization_of_no_unknown⟩

theorem concretization_exact_witness :
    ((⟨1, 0, 0⟩ : KnownBits).Zero &&& (⟨1, 0, 0⟩ : KnownBits).One = 0) ∧
    ((⟨1, 0, 0⟩ : KnownBits).Zero < 2 ^ 1) ∧
    ((⟨1, 0, 0⟩ : KnownBits).One < 2 ^ 1) ∧
    (concretization ⟨1, 0, 0⟩).length = 2 ^ (unknownIndexes ⟨1, 0, 0⟩).length :=
  ⟨by decide, by decide, by decide,
    (concretization_exact ⟨1, 0, 0⟩ (by decide) (by decide) (by decide)).1⟩

/-- Claim C1: abstracting the concretization of a conflict-free state gives back
exactly the same Zero and One masks. -/
theorem abstraction_concretization_roundTrip (s : KnownBits)
    (hc : s.Zero &&& s.One = 0) (hz : s.Zero < 2 ^ s.width)
    (ho : s.One < 2 ^ s.width) :
    (abstraction s.width (concretization s)).Zero = s.Zero ∧
    (abstraction s.width (concretization s)).One = s.One := by
  have hnd := unknownIndexes_nodup s
  have hbit0 : ∀ j, j ∉ unknownIndexes s →
      (applyAssignment s.One (unknownIndexes s) 0).testBit j = s.One.testBit j :=
    fun j hj => applyAssignment_testBit_not_mem _ _ _ _ hj
  constructor
  · apply Nat.eq_of_testBit_eq
    intro j
    rw [abstraction_Zero_testBit]
    by_cases hw : j < s.width
    · by_cases hzb : s.Zero.testBit j = true
      · have hall : ((concretization s).all fun v => !v.testBit j) = true := by
          rw [List.all_eq_true]
          intro v hv
          rw [(((mem_concretization_iff hc ho v).mp hv).2 j).1 hzb]
          rfl
        simp [hw, hall, hzb]
      · have hR : s.Zero.testBit j = false := by simpa using hzb
        rw [hR]
        apply Bool.eq_false_iff.mpr
        intro hLHS
        rw [Bool.and_eq_true, List.all_eq_true] at hLHS
        by_cases hob : s.One.testBit j = true
        · have hjn : j ∉ unknownIndexes s := fun hmem => by
            have := (mem_unknownIndexes.mp hmem).2.2
            rw [hob] at this
            simp at this
          have := hLHS.2 _ (mem_concretization_zero s)
          rw [hbit0 j hjn, hob] at this
          simp at this
        · have hjm : j ∈ unknownIndexes s :=
            mem_unknownIndexes.mpr ⟨hw, hR, by simpa using hob⟩
          obtain ⟨p, hgot⟩ := List.mem_iff_get.mp hjm
          have hlt2 : 2 ^ (p : Nat) < 2 ^ (unknownIndexes s).length := by
            have := p.isLt
            exact Nat.pow_lt_pow_right (by omega) this
          have hmem2 : applyAssignment s.One (unknownIndexes s) (2 ^ (p : Nat))
              ∈ concretization s := by
            simp only [concretization, List.mem_map, List.mem_range]
            exact ⟨2 ^ (p : Nat), hlt2, rfl⟩
          have hbit2 : (applyAssignment s.One (unknownIndexes s)
              (2 ^ (p : Nat))).testBit j = true := by
            rw [← hgot,
              applyAssignment_testBit_get (unknownIndexes s) s.One _ _ p.isLt hnd]
            exact Nat.testBit_two_pow_self
          have := hLHS.2 _ hmem2
          rw [hbit2] at this
          simp at this
    · have hR : s.Zero.testBit j = false :=
        testBit_of_lt_two_pow hz (Nat.le_of_not_lt hw)
      simp [hw, hR]
  · apply Nat.eq_of_testBit_eq
    intro j
    rw [abstraction_One_testBit]
    by_cases hw : j < s.width
    · by_cases hob : s.One.testBit j = true
      · have hall : ((concretization s).all fun v => v.testBit j) = true := by
          rw [List.all_eq_true]
          intro v hv
          exact (((mem_concretization_iff hc ho v).mp hv).2 j).2 hob
        simp [hw, hall, hob]
      · have hR : s.One.testBit j = false := by simpa using hob
        rw [hR]
        apply Bool.eq_false_iff.mpr
        intro hLHS
        rw [Bool.and_eq_true, List.all_eq_true] at hLHS
        have hzero0 : (applyAssignment s.One (unknownIndexes s) 0).testBit j
            = false := by
          by_cases hjm : j ∈ unknownIndexes s
          · obtain ⟨p, hgot⟩ := List.mem_iff_get.mp hjm
            rw [← hgot,
              applyAssignment_testBit_get (unknownIndexes s) s.One _ _ p.isLt hnd]
            exact Nat.zero_testBit _
          · rw [hbit0 j hjm]
            exact hR
        have := hLHS.2 _ (mem_concretization_zero s)
        rw [hzero0] at this
        simp at this
    · have hR : s.One.testBit j = false :=
        testBit_of_lt_two_pow ho (Nat.le_of_not_lt hw)
      simp [hw, hR]

theorem abstraction_concretization_roundTrip_witness :
    ((⟨2, 1, 2⟩ : KnownBits).Zero &&& (⟨2, 1, 2⟩ : KnownBits).One = 0) ∧
    ((⟨2, 1, 2⟩ : KnownBits).Zero < 2 ^ 2) ∧
    ((⟨2, 1, 2⟩ : KnownBits).One < 2 ^ 2) ∧
    (abstraction 2 (concretization ⟨2, 1, 2⟩)).Zero = 1 ∧
    (abstraction 2 (concretization ⟨2, 1, 2⟩)).One = 2 :=
  ⟨by decide, by decide, by decide,
    (abstraction_concretization_roundTrip ⟨2, 1, 2⟩ (by decide) (by decide)
      (by decide)).1,
    (abstraction_concretization_roundTrip ⟨2, 1, 2⟩ (by decide) (by decide)
      (by decide)).2⟩

/-! ### Transfer-function lemmas -/

theorem mkKB_no_conflict (w i : Nat) : (mkKB w i).Zero &&& (mkKB w i).One = 0 := by
  apply Nat.eq_of_testBit_eq
  intro j
  rw [Nat.testBit_and, Nat.zero_testBit]
  cases h1 : (mkKB w i).Zero.testBit j
  · rfl
  · cases h2 : (mkKB w i).One.testBit j
    · rfl
    · exact absurd ⟨h1, h2⟩ (kbMasks_no_conflict w i j)

/-- Claim C5: every bit `naiveMulhs` marks Zero (resp. One) is clear (resp. set)
in the exact signed high-product of any pair of concretizations of the
operands. -/
theorem naiveMulhs_sound (LHS RHS : KnownBits) (hw : RHS.width = LHS.width)
    (hcL : LHS.Zero &&& LHS.One = 0) (hcR : RHS.Zero &&& RHS.One = 0)
    (lhs rhs : Nat) (hl : lhs ∈ concretization LHS)
    (hr : rhs ∈ concretization RHS) :
    ∀ j, ((naiveMulhs LHS RHS).Zero.testBit j = true →
            (mulhsExact LHS.width lhs rhs).testBit j = false) ∧
         ((naiveMulhs LHS RHS).One.testBit j = true →
            (mulhsExact LHS.width lhs rhs).testBit j = true) := by
  have hmem : mulhsExact LHS.width lhs rhs ∈
      ((concretization LHS).flatMap fun a =>
        (concretization RHS).map fun b => mulhsExact LHS.width a b) := by
    simp only [List.mem_flatMap, List.mem_map]
    exact ⟨lhs, hl, rhs, hr, rfl⟩
  intro j
  constructor
  · intro h
    simp only [naiveMulhs] at h
    rw [abstraction_Zero_testBit, Bool.and_eq_true, List.all_eq_true] at h
    simpa using h.2 _ hmem
  · intro h
    simp only [naiveMulhs] at h
    rw [abstraction_One_testBit, Bool.and_eq_true, List.all_eq_true] at h
    exact h.2 _ hmem

theorem naiveMulhs_sound_witness :
    ((⟨1, 0, 0⟩ : KnownBits).width = (⟨1, 0, 0⟩ : KnownBits).width) ∧
    ((⟨1, 0, 0⟩ : KnownBits).Zero &&& (⟨1, 0, 0⟩ : KnownBits).One = 0) ∧
    (1 ∈ concretization (⟨1, 0, 0⟩ : KnownBits)) ∧
    ((naiveMulhs ⟨1, 0, 0⟩ ⟨1, 0, 0⟩).One.testBit 0 = true →
      (mulhsExact 1 1 1).testBit 0 = true) :=
  ⟨rfl, by decide, by decide,
    (naiveMulhs_sound ⟨1, 0, 0⟩ ⟨1, 0, 0⟩ rfl (by decide) (by decide) 1 1
      (by decide) (by decide) 0).2⟩

/-- Claim C8: enumerated states, abstractions of nonempty value lists, and
`naiveMulhs` results all satisfy the no-conflict invariant
`Zero &&& One = 0`. -/
theorem public_interface_no_conflict (w : Nat) (kb : KnownBits)
    (hkb : kb ∈ enumerateFromBitWidth w) (values : List Nat)
    (hne : values ≠ []) (lhs rhs : KnownBits) :
    kb.Zero &&& kb.One = 0 ∧
    (abstraction w values).Zero &&& (abstraction w values).One = 0 ∧
    (naiveMulhs lhs rhs).Zero &&& (naiveMulhs lhs rhs).One = 0 := by
  refine ⟨?_, ?_, ?_⟩
  · simp only [enumerateFromBitWidth, List.mem_map, List.mem_range] at hkb
    obtain ⟨i, _, rfl⟩ := hkb
    exact mkKB_no_conflict w i
  · apply Nat.eq_of_testBit_eq
    intro j
    rw [Nat.testBit_and, Nat.zero_testBit]
    obtain ⟨v, hv⟩ := List.exists_mem_of_ne_nil values hne
    cases hz : (abstraction w values).Zero.testBit j
    · rfl
    · cases h1 : (abstraction w values).One.testBit j
      · rfl
      · rw [abstraction_Zero_testBit, Bool.and_eq_true, List.all_eq_true] at hz
        rw [abstraction_One_testBit, Bool.and_eq_true, List.all_eq_true] at h1
        have hb1 := hz.2 v hv
        have hb2 := h1.2 v hv
        rw [hb2] at hb1
        simp at hb1
  · apply Nat.eq_of_testBit_eq
    intro j
    rw [Nat.testBit_and, Nat.zero_testBit]
    have hmem : mulhsExact lhs.width (applyAssignment lhs.One (unknownIndexes lhs) 0)
        (applyAssignment rhs.One (unknownIndexes rhs) 0) ∈
        ((concretization lhs).flatMap fun a =>
          (concretization rhs).map fun b => mulhsExact lhs.width a b) := by
      simp only [List.mem_flatMap, List.mem_map]
      exact ⟨_, mem_concretization_zero lhs, _, mem_concretization_zero rhs, rfl⟩
    cases hz : (naiveMulhs lhs rhs).Zero.testBit j
    · rfl
    · cases h1 : (naiveMulhs lhs rhs).One.testBit j
      · rfl
      · simp only [naiveMulhs] at hz h1
        rw [abstraction_Zero_testBit, Bool.and_eq_true, List.all_eq_true] at hz
        rw [abstraction_One_testBit, Bool.and_eq_true, List.all_eq_true] at h1
        have hb1 := hz.2 _ hmem
        have hb2 := h1.2 _ hmem
        rw [hb2] at hb1
        simp at hb1

theorem public_interface_no_conflict_witness :
    ((⟨1, 1, 0⟩ : KnownBits) ∈ enumerateFromBitWidth 1) ∧
    (([1] : List Nat) ≠ []) ∧
    ((⟨1, 1, 0⟩ : KnownBits).Zero &&& (⟨1, 1, 0⟩ : KnownBits).One = 0) ∧
    (abstraction 1 [1]).Zero &&& (abstraction 1 [1]).One = 0 ∧
    (naiveMulhs ⟨1, 0, 0⟩ ⟨1, 0, 0⟩).Zero &&& (naiveMulhs ⟨1, 0, 0⟩ ⟨1, 0, 0⟩).One = 0 := by
  have h := public_interface_no_conflict 1 ⟨1, 1, 0⟩ (by decide) [1] (by decide)
    ⟨1, 0, 0⟩ ⟨1, 0, 0⟩
  exact ⟨by decide, by decide, h.1, h.2.1, h.2.2⟩

theorem enumerateFromBitWidth_length (w : Nat) (h : 3 ^ w < 2 ^ 64) :
    (enumerateFromBitWidth w).length = 3 ^ w := by
  rw [enumerateFromBitWidth, List.length_map, List.length_range, totalCounter_eq,
    Nat.mod_eq_of_lt h]

/-- Claim C3: for widths whose 3^w fits the 64-bit counter, the
`enumerateFromBitWidth` of `src/testMulhs.cpp` returns 3^w pairwise
distinct conflict-free states of width w; the copy in `src/main.cpp`
leaves its loop counter uninitialized, and with indeterminate start value
3 at width 1 it returns no states at all instead of 3. -/
theorem enumerateFromBitWidth_exact (w : Nat) (h : 3 ^ w < 2 ^ 64) :
    ((enumerateFromBitWidth w).length = 3 ^ w ∧
     (enumerateFromBitWidth w).Nodup ∧
     ∀ kb ∈ enumerateFromBitWidth w, kb.width = w ∧ kb.Zero &&& kb.One = 0) ∧
    enumerateFromBitWidthMain 1 3 = [] := by
  refine ⟨⟨enumerateFromBitWidth_length w h, ?_, ?_⟩, by decide⟩
  · apply List.Nodup.map_on _ (List.nodup_range _)
    intro i1 h1 i2 h2 heq
    rw [List.mem_range, totalCounter_eq, Nat.mod_eq_of_lt h] at h1 h2
    have hfst := congrArg KnownBits.Zero heq
    have hsnd := congrArg KnownBits.One heq
    exact kbMasks_inj w i1 i2 h1 h2 (Prod.ext hfst hsnd)
  · intro kb hkb
    simp only [enumerateFromBitWidth, List.mem_map, List.mem_range] at hkb
    obtain ⟨i, _, rfl⟩ := hkb
    exact ⟨rfl, mkKB_no_conflict w i⟩

theorem enumerateFromBitWidth_exact_witness :
    (3 ^ 1 < 2 ^ 64) ∧ (enumerateFromBitWidth 1).length = 3 ^ 1 ∧
    enumerateFromBitWidthMain 1 3 = [] :=
  ⟨by decide, (enumerateFromBitWidth_exact 1 (by decide)).1.1,
    (enumerateFromBitWidth_exact 1 (by decide)).2⟩

theorem classifyPair_incomparable_iff (w : Nat) (c n : KnownBits) :
    classifyPair w c n = CompareClass.incomparable ↔
      ∃ k, k < w ∧ ((c.Zero.testBit k = true ∧ n.One.testBit k = true) ∨
                    (c.One.testBit k = true ∧ n.Zero.testBit k = true)) := by
  have hiff : hasContradiction w c n = true ↔
      ∃ k, k < w ∧ ((c.Zero.testBit k = true ∧ n.One.testBit k = true) ∨
                    (c.One.testBit k = true ∧ n.Zero.testBit k = true)) := by
    simp [hasContradiction, List.any_eq_true, List.mem_range, and_assoc]
  rw [← hiff]
  constructor
  · intro hcl
    by_contra hct
    have hct' : hasContradiction w c n = false := by simpa using hct
    simp only [classifyPair, hct', Bool.false_eq_true, if_false] at hcl
    split at hcl <;> try (exact CompareClass.noConfusion hcl)
    split at hcl <;> exact CompareClass.noConfusion hcl
  · intro hct
    simp [classifyPair, hct]

theorem classifyPair_comparable (w : Nat) (c n : KnownBits)
    (h : classifyPair w c n ≠ CompareClass.incomparable) :
    (classifyPair w c n = CompareClass.compositeMorePrecise ↔
      popCount w n.Zero + popCount w n.One < popCount w c.Zero + popCount w c.One) ∧
    (classifyPair w c n = CompareClass.naiveMorePrecise ↔
      popCount w c.Zero + popCount w c.One < popCount w n.Zero + popCount w n.One) ∧
    (classifyPair w c n = CompareClass.samePrecision ↔
      popCount w c.Zero + popCount w c.One = popCount w n.Zero + popCount w n.One) := by
  have hct : hasContradiction w c n = false := by
    by_contra hct
    exact h (by simp [classifyPair, by simpa using hct])
  simp only [classifyPair, hct, Bool.false_eq_true, if_false]
  by_cases h1 : popCount w n.Zero + popCount w n.One <
      popCount w c.Zero + popCount w c.One
  · rw [if_pos h1]
    refine ⟨by simp [h1], by simp; omega, by simp; omega⟩
  · rw [if_neg h1]
    by_cases h2 : popCount w c.Zero + popCount w c.One <
        popCount w n.Zero + popCount w n.One
    · rw [if_pos h2]
      refine ⟨by simp [h1], by simp [h2], by simp; omega⟩
    · rw [if_neg h2]
      refine ⟨by simp [h1], by simp [h2], by simp; omega⟩

theorem countsSum_bumpCounts (cnt : Counts) (cl : CompareClass) :
    countsSum (bumpCounts cnt cl) = countsSum cnt + 1 := by
  cases cl <;> simp [bumpCounts, countsSum] <;> omega

theorem countsSum_foldl (w : Nat) (ref : KnownBits → KnownBits → KnownBits)
    (l : List (KnownBits × KnownBits)) (c0 : Counts) :
    countsSum (l.foldl
      (fun cnt p => bumpCounts cnt (classifyPair w (ref p.1 p.2) (naiveMulhs p.1 p.2)))
      c0) = countsSum c0 + l.length := by
  induction l generalizing c0 with
  | nil => simp
  | cons a t ih => rw [List.foldl_cons, ih, countsSum_bumpCounts]; simp; omega

theorem length_pair_list (states : List KnownBits) :
    ∀ l : List KnownBits,
      (l.flatMap fun L => states.map fun R => (L, R)).length
        = l.length * states.length := by
  intro l
  induction l with
  | nil => simp
  | cons a t ih => simp [ih, Nat.succ_mul, Nat.add_comm]

/-- Claim C6: the engine classifies a pair Incomparable iff some bit below w
directly contradicts between the reference and the naive result,
otherwise exactly one of the three precision counters is selected by
comparing precision counts; each pair bumps exactly one counter and the
four counters sum to (3^w)^2. -/
theorem comparison_engine_correct (w : Nat)
    (ref : KnownBits → KnownBits → KnownBits) (h : 3 ^ w < 2 ^ 64) :
    (∀ c n : KnownBits, classifyPair w c n = CompareClass.incomparable ↔
      ∃ k, k < w ∧ ((c.Zero.testBit k = true ∧ n.One.testBit k = true) ∨
                    (c.One.testBit k = true ∧ n.Zero.testBit k = true))) ∧
    (∀ c n : KnownBits, classifyPair w c n ≠ CompareClass.incomparable →
      (classifyPair w c n = CompareClass.compositeMorePrecise ↔
        popCount w n.Zero + popCount w n.One < popCount w c.Zero + popCount w c.One) ∧
      (classifyPair w c n = CompareClass.naiveMorePrecise ↔
        popCount w c.Zero + popCount w c.One < popCount w n.Zero + popCount w n.One) ∧
      (classifyPair w c n = CompareClass.samePrecision ↔
        popCount w c.Zero + popCount w c.One = popCount w n.Zero + popCount w n.One)) ∧
    (∀ (cnt : Counts) (cl : CompareClass),
      countsSum (bumpCounts cnt cl) = countsSum cnt + 1) ∧
    countsSum (testMulhsTransferFunctions w ref) = (3 ^ w) ^ 2 := by
  refine ⟨classifyPair_incomparable_iff w, classifyPair_comparable w,
    countsSum_bumpCounts, ?_⟩
  show countsSum ((
      (enumerateFromBitWidth w).flatMap fun L =>
        (enumerateFromBitWidth w).map fun R => (L, R)).foldl
      (fun cnt p => bumpCounts cnt (classifyPair w (ref p.1 p.2) (naiveMulhs p.1 p.2)))
      ⟨0, 0, 0, 0⟩) = (3 ^ w) ^ 2
  rw [countsSum_foldl, length_pair_list, enumerateFromBitWidth_length w h]
  show countsSum ⟨0, 0, 0, 0⟩ + 3 ^ w * 3 ^ w = (3 ^ w) ^ 2
  rw [Nat.pow_two]
  show 0 + 0 + 0 + 0 + 3 ^ w * 3 ^ w = 3 ^ w * 3 ^ w
  omega

theorem comparison_engine_correct_witness :
    (3 ^ 1 < 2 ^ 64) ∧
    countsSum (testMulhsTransferFunctions 1 fun _ _ => ⟨1, 0, 0⟩) = (3 ^ 1) ^ 2 :=
  ⟨by decide,
    (comparison_engine_correct 1 (fun _ _ => ⟨1, 0, 0⟩) (by decide)).2.2.2⟩

/-- Claim C7: the two `abstraction` copies are not extensionally equal: on the
single-element width-1 list `[0]`, the `src/testMulhs.cpp` copy marks
bit 0 Zero while the `src/main.cpp` copy (whose `knownZero` starts at 0
instead of all-ones) marks nothing. -/
theorem abstraction_copies_differ :
    abstraction 1 [0] ≠ abstractionMain 1 [0] ∧
    (abstraction 1 [0]).Zero = 1 ∧ (abstractionMain 1 [0]).Zero = 0 :=
  ⟨by decide, by decide, by decide⟩

/-- Claim C9: no overflow check exists; at width 41 the 64-bit `total` counter
silently wraps modulo 2^64 and the enumeration loop proceeds with the
wrapped bound instead of being rejected. -/
theorem totalCounter_wraps :
    totalCounter 41 = 3 ^ 41 % 2 ^ 64 ∧
    totalCounter 41 < 3 ^ 41 ∧
    (enumerateFromBitWidth 41).length = totalCounter 41 := by
  refine ⟨totalCounter_eq 41, ?_, by simp [enumerateFromBitWidth]⟩
  rw [totalCounter_eq]
  decide

/-- Claim C10: with no positional argument `main` prints the usage text and
exits with status 1; with an argument that `std::stoi` rejects as no
integer, the default width 4 is substituted and the run proceeds with
exit status 0. -/
theorem mainRun_arg_handling :
    mainRun [] = ⟨true, 1, none⟩ ∧
    ∀ rest : List StoiResult,
      mainRun (StoiResult.invalidArgument :: rest) = ⟨false, 0, some 4⟩ :=
  ⟨rfl, fun _ => rfl⟩
